import Mathlib

/-!
Shallow embedding of the ComfyUI Impact Pack wildcard / dynamic-prompt
text-expansion engine, as documented in
`src/custom_nodes/comfyui-impact-pack/docs/wildcards/WILDCARD_SYSTEM_DESIGN.md`
and `WILDCARD_SYSTEM_PRD.md`.  The Python implementation file
`modules/impact/wildcards.py` referenced by those documents is not part of the
repository snapshot, so every definition below is modelled from the design
documents' pseudocode and the product requirement document's worked examples,
with text represented as lists of characters and the seeded pseudo-random
generator as an explicit pure state machine.
-/

/-- A text buffer, modelled as a list of characters (a Python `str`). -/
abbrev Text := List Char

/-- Build a `Text` from a string literal (convenience for concrete examples). -/
def txt (s : String) : Text := s.data

/-- Modelled from the spec: the seeded pseudo-random generator state of the
engine (`random.seed` / `np.random` in the missing `modules/impact/wildcards.py`).
Any deterministic generator is a faithful model of the documented contract
("seed-based random selection ensures reproducibility"); we use a linear
congruential generator over `Nat` with an explicit `% 2^31` truncation. -/
structure Gen where
  state : Nat
deriving DecidableEq, Repr

/-- Modelled from the spec: draw one pseudo-random value below `n` (for `n > 0`)
and return the advanced generator. -/
def genNext (g : Gen) (n : Nat) : Nat × Gen :=
  let s := (g.state * 1103515245 + 12345) % 2147483648
  (s % n, ⟨s⟩)

/-- Modelled from the spec: seeding the generator from a user-provided seed
(`random.seed(seed)` in the design document's `process` flow). -/
def seedGen (s : Nat) : Gen := ⟨s % 2147483648⟩

/-- Modelled from the spec: if a seed is provided the ambient generator state is
overwritten by the seeded state, otherwise the ambient state is used. -/
def seedOf : Option Nat → Gen → Gen
  | some s, _ => seedGen s
  | none, g => g

/-- Does `pat` occur as a contiguous substring of `s` (Python `in`)? -/
def containsSub (pat : Text) : Text → Bool
  | [] => List.isPrefixOf pat []
  | c :: rest => List.isPrefixOf pat (c :: rest) || containsSub pat rest

/-- `wildcard_normalize` from the design document §2.4.2: lower-case the key
and turn backslashes into slashes. -/
def wildcard_normalize (t : Text) : Text :=
  t.map (fun c => if c = '\\' then '/' else c.toLower)

/-- Association-list lookup used to model the engine's Python dicts
(`loaded_wildcards`, `available_wildcards`, `wildcard_dict`). -/
def lookupA {α : Type} : List (Text × α) → Text → Option α
  | [], _ => none
  | kv :: rest, k => if kv.fst = k then some kv.snd else lookupA rest k

/-- A whitespace test mirroring Python's `str.strip` character class. -/
def isSpaceChar (c : Char) : Bool := c.isWhitespace

/-- Left strip: drop leading whitespace (Python `str.lstrip`). -/
def lstripT (t : Text) : Text := t.dropWhile isSpaceChar

/-- Right strip: drop trailing whitespace (Python `str.rstrip`). -/
def rstripT (t : Text) : Text := ((t.reverse).dropWhile isSpaceChar).reverse

/-- Python `str.strip`: drop whitespace on both ends. -/
def stripT (t : Text) : Text := rstripT (lstripT t)

/-- Modelled from the spec: the per-line keep predicate of the flat-file loader
in the missing `modules/impact/wildcards.py`, recorded in the project summary's
"Empty Line Filtering" snippet:
`[x for x in lines if x.strip() and not x.strip().startswith('#')]`. -/
def keepLine (l : Text) : Bool :=
  !(stripT l).isEmpty && !(List.isPrefixOf ['#'] (stripT l))

/-- Modelled from the spec: `load_txt_wildcard` of the missing
`modules/impact/wildcards.py` applied to the split lines of a flat backing
file; keeps, in file order, the lines passing `keepLine`. -/
def load_txt (lines : List Text) : List Text :=
  lines.filter keepLine

/-- Split a text into its lines at `'\n'` (Python `str.split('\n')`). -/
def splitLines : Text → List Text
  | [] => [[]]
  | c :: rest =>
    if c = '\n' then [] :: splitLines rest
    else
      match splitLines rest with
      | [] => [[c]]
      | l :: ls => (c :: l) :: ls

/-- Join lines back with `'\n'`. -/
def joinLines : List Text → Text
  | [] => []
  | [l] => l
  | l :: ls => l ++ '\n' :: joinLines ls

/-- Is this line a comment line (its first non-whitespace character is `#`)? -/
def isCommentLine (l : Text) : Bool :=
  List.isPrefixOf ['#'] (lstripT l)

/-- Modelled from the spec: the line fold of the comment stripper.  Per the
PRD's "Comments" section, whole lines starting with `#` are removed and the
text before and after a removed comment line is joined by a single space;
a `#` appearing after other content on a line is kept. -/
def stripCommentsAux (acc : List Text) (pending : Bool) : List Text → List Text
  | [] => acc.reverse
  | l :: ls =>
    if isCommentLine l then stripCommentsAux acc true ls
    else
      match pending, acc with
      | true, p :: rest => stripCommentsAux ((p ++ ' ' :: l) :: rest) false ls
      | _, _ => stripCommentsAux (l :: acc) false ls

/-- Modelled from the spec: `process_comment_out` of the missing
`modules/impact/wildcards.py`, following the PRD "Comments" worked example. -/
def process_comment_out (t : Text) : Text :=
  joinLines (stripCommentsAux [] false (splitLines t))

/-- Find the matching close brace of an already-open `{`, scanning with a
bracket-depth counter (the spec's "bracket-depth-aware splitting", §4.3).
Returns the text strictly inside the braces and the text after the close. -/
def findClose : Text → Nat → Option (Text × Text)
  | [], _ => none
  | c :: rest, d =>
    if c = '\x7d' then
      if d = 0 then some ([], rest)
      else (findClose rest (d - 1)).map (fun p => (c :: p.1, p.2))
    else if c = '\x7b' then
      (findClose rest (d + 1)).map (fun p => (c :: p.1, p.2))
    else
      (findClose rest d).map (fun p => (c :: p.1, p.2))

/-- Split a block body at top-level `|` separators, depth-aware so that nested
`{...}` blocks are not split (spec §4.3, "bracket-depth-aware splitting"). -/
def splitTopAux : Text → Nat → List Text
  | [], _ => [[]]
  | c :: rest, d =>
    if c = '|' ∧ d = 0 then [] :: splitTopAux rest 0
    else
      let d' := if c = '\x7b' then d + 1 else if c = '\x7d' then d - 1 else d
      match splitTopAux rest d' with
      | [] => [[c]]
      | s :: ss => (c :: s) :: ss

/-- Split a block body at top-level `|` separators. -/
def splitTop (t : Text) : List Text := splitTopAux t 0

/-- Split at the first occurrence of `::` (the weight separator), if any. -/
def splitColons : Text → Option (Text × Text)
  | [] => none
  | [_] => none
  | c1 :: c2 :: rest =>
    if c1 = ':' ∧ c2 = ':' then some ([], rest)
    else (splitColons (c2 :: rest)).map (fun p => (c1 :: p.1, p.2))

/-- Split at the first occurrence of `$$` (the multi-select separator), if any. -/
def splitDollars : Text → Option (Text × Text)
  | [] => none
  | [_] => none
  | c1 :: c2 :: rest =>
    if c1 = '$' ∧ c2 = '$' then some ([], rest)
    else (splitDollars (c2 :: rest)).map (fun p => (c1 :: p.1, p.2))

/-- Split at the first occurrence of `-`, if any. -/
def splitDash : Text → Option (Text × Text)
  | [] => none
  | c :: rest =>
    if c = '-' then some ([], rest)
    else (splitDash rest).map (fun p => (c :: p.1, p.2))

/-- Numeric value of a digit string. -/
def digitsVal (t : Text) : Nat :=
  t.foldl (fun n c => n * 10 + (c.toNat - 48)) 0

/-- Is the text a non-empty run of decimal digits? -/
def allDigits (t : Text) : Bool := !t.isEmpty && t.all Char.isDigit

/-- Modelled from the spec: weight parsing of one option segment of a dynamic
block in the missing `modules/impact/wildcards.py`.  A segment `w::text` whose
prefix before the first `::` is a non-negative number carries weight `w` on the
text AFTER the `::`; any other segment (including `text::w`) is unweighted and
defaults to weight 1 (PRD "Weighted Selection": weight comes FIRST).  Weights
are modelled as naturals; the PRD restricts weights to integers and simple
decimals and recommends integers. -/
def parseWeight (seg : Text) : Nat × Text :=
  match splitColons seg with
  | some (pre, post) =>
    if allDigits pre then (digitsVal pre, post) else (1, seg)
  | none => (1, seg)

/-- The requested item count of a multi-select block: `n`, `n1-n2` or `-n`. -/
inductive MCount where
  | fixedN (n : Nat)
  | rangeN (a b : Nat)
deriving DecidableEq, Repr

/-- Parse the count spec before the first `$$` of a multi-select block. -/
def parseCount (t : Text) : Option MCount :=
  if allDigits t then some (MCount.fixedN (digitsVal t))
  else
    match splitDash t with
    | none => none
    | some (a, b) =>
      if a.isEmpty then
        if allDigits b then some (MCount.rangeN 1 (digitsVal b)) else none
      else if allDigits a && allDigits b then
        some (MCount.rangeN (digitsVal a) (digitsVal b))
      else none

/-- Modelled from the spec: multi-select block recognition in the missing
`modules/impact/wildcards.py` (PRD "Multi-Select"): `n$$opts`, `n1-n2$$opts`,
`-n$$opts`, optionally with a custom separator between a first and second `$$`
(`n$$sep$$opts`); the default separator is `", "`. -/
def parseMulti (inner : Text) : Option (MCount × Text × List Text) :=
  match splitDollars inner with
  | none => none
  | some (pre, rest) =>
    match parseCount pre with
    | none => none
    | some mc =>
      match splitDollars rest with
      | some (sep, rest2) => some (mc, sep, splitTop rest2)
      | none => some (mc, ',' :: [' '], splitTop rest)

/-- Weighted index selection: given the per-segment weights and a raw draw `r`,
walk the cumulative weights and return the selected segment index. -/
def weightedPick : List Nat → Nat → Nat
  | [], _ => 0
  | w :: ws, r => if r < w then 0 else weightedPick ws (r - w) + 1

/-- Modelled from the spec: sampling `n` distinct options without replacement
(the Selection Engine `choose`): each draw removes the chosen position from the
pool, and a request larger than the pool is clamped to the pool size. -/
def sampleDistinct (g : Gen) : Nat → List Text → List Text × Gen
  | 0, _ => ([], g)
  | _ + 1, [] => ([], g)
  | n + 1, o :: os =>
    let (r, g1) := genNext g (o :: os).length
    let chosen := (o :: os).getD r []
    let rest := (o :: os).eraseIdx r
    let (more, g2) := sampleDistinct g1 n rest
    (chosen :: more, g2)

/-- Join a list of texts with a separator (Python `sep.join`). -/
def joinSep (sep : Text) : List Text → Text
  | [] => []
  | [x] => x
  | x :: y :: ys => x ++ sep ++ joinSep sep (y :: ys)

/-- Modelled from the spec: evaluation of the body of one `{...}` dynamic block
by the missing `modules/impact/wildcards.py` (`replace_options`): a multi-select
block samples distinct options and joins them with the separator; otherwise one
segment is drawn with probability proportional to its parsed weight. -/
def evalBlock (g : Gen) (inner : Text) : Text × Gen :=
  match parseMulti inner with
  | some (mc, sep, opts) =>
    let cg : Nat × Gen :=
      match mc with
      | MCount.fixedN n => (n, g)
      | MCount.rangeN a b =>
        let (r, g') := genNext g (b + 1 - a)
        (a + r, g')
    let (chosen, g2) := sampleDistinct cg.2 cg.1 opts
    (joinSep sep chosen, g2)
  | none =>
    let parsed := (splitTop inner).map parseWeight
    let ws := parsed.map Prod.fst
    let (r, g') := genNext g ws.sum
    ((parsed.getD (weightedPick ws r) (1, [])).snd, g')

/-- Modelled from the spec: one scan of `replace_options` over the text.  The
leftmost complete `{...}` block (matching close found depth-aware) is replaced
by its evaluation; an open brace with no matching close is left as literal
text (spec §4.3 edge-case policy).  The orchestrator's fixed-point loop
re-scans, so one substitution per scan expands all blocks transitively. -/
def replaceOptionsPass (g : Gen) : Text → Text × Gen
  | [] => ([], g)
  | c :: rest =>
    if c = '\x7b' then
      match findClose rest 0 with
      | some (inner, after) =>
        let (sel, g') := evalBlock g inner
        (sel ++ after, g')
      | none =>
        let (out, g') := replaceOptionsPass g rest
        (c :: out, g')
    else
      let (out, g') := replaceOptionsPass g rest
      (c :: out, g')

/-- Scanning for the closing `__` of a wildcard token: returns the token name
(text before the first `__`) and the text after it. -/
def findToken : Text → Option (Text × Text)
  | [] => none
  | [_] => none
  | c1 :: c2 :: rest =>
    if c1 = '_' ∧ c2 = '_' then some ([], rest)
    else (findToken (c2 :: rest)).map (fun p => (c1 :: p.1, p.2))

/-- The wildcard store state (design document §2.4.1): `loaded` models the
`loaded_wildcards` data cache (key → OptionList) and `available` models the
`available_wildcards` metadata index; since the file system is abstracted,
each `available` entry carries the split lines of its backing flat file. -/
structure Store where
  loaded : List (Text × List Text)
  available : List (Text × List Text)
deriving DecidableEq, Repr

/-- `matches_depth_agnostic` from the design document §2.2.1: a stored key
matches a searched key when it is equal to it, ends with `/key`, starts with
`key/`, or contains `/key/`. -/
def matches_depth_agnostic (storedKey searchKey : Text) : Bool :=
  storedKey = searchKey ||
  List.isSuffixOf ('/' :: searchKey) storedKey ||
  List.isPrefixOf (searchKey ++ ['/']) storedKey ||
  containsSub ('/' :: searchKey ++ ['/']) storedKey

/-- Modelled from the spec: `get_wildcard_value` of the missing
`modules/impact/wildcards.py`, following the design document §2.2.1 pseudocode:
phase 1 is a direct lookup in the loaded cache; phase 2 finds and loads the
key's own backing file (abstracted as a lookup in the availability metadata),
caching the result; phase 3 is the depth-agnostic fallback, which scans the
`available_wildcards` metadata keys, concatenates the loaded OptionLists of
every match in index order, and caches the combined pool under the originally
requested key; with no match at all it returns `none` and leaves the store
unchanged. -/
def get_wildcard_value (st : Store) (key : Text) : Option (List Text) × Store :=
  match lookupA st.loaded key with
  | some v => (some v, st)
  | none =>
    match lookupA st.available key with
    | some lines =>
      let v := load_txt lines
      (some v, ⟨(key, v) :: st.loaded, st.available⟩)
    | none =>
      let matched := st.available.filter (fun kv => matches_depth_agnostic kv.fst key)
      if matched = [] then (none, st)
      else
        let combined := (matched.map (fun kv => load_txt kv.snd)).flatten
        (some combined, ⟨(key, combined) :: st.loaded, st.available⟩)

/-- Modelled from the spec: one scan of `replace_wildcard` over the text, with
explicit recursion fuel (one unit per scanned position; the wrapper passes the
text length, which is always sufficient).  The leftmost complete `__name__`
token is resolved through `get_wildcard_value`; on success a random option
replaces it, on failure the token is kept unchanged in the output (design
document §2.1.3 "keep unchanged") and scanning continues after it. -/
def replaceWildcardAux (fuel : Nat) (st : Store) (g : Gen) (t : Text) :
    Text × Store × Gen :=
  match fuel, t with
  | 0, _ => (t, st, g)
  | _ + 1, [] => ([], st, g)
  | fuel + 1, '_' :: '_' :: rest =>
    match findToken rest with
    | none => ('_' :: '_' :: rest, st, g)
    | some (name, after) =>
      match get_wildcard_value st (wildcard_normalize name) with
      | (some opts, st') =>
        let (r, g') := genNext g opts.length
        (opts.getD r [] ++ after, st', g')
      | (none, st') =>
        let (out, st'', g'') := replaceWildcardAux fuel st' g after
        ('_' :: '_' :: name ++ '_' :: '_' :: out, st'', g'')
  | fuel + 1, c :: rest =>
    let (out, st', g') := replaceWildcardAux fuel st g rest
    (c :: out, st', g')

/-- Modelled from the spec: one `replace_wildcard` scan (fuel instantiated with
the text length, which bounds the number of scanned positions). -/
def replaceWildcardPass (st : Store) (g : Gen) (t : Text) : Text × Store × Gen :=
  replaceWildcardAux t.length st g t

/-- One full expansion pass of the orchestrator: dynamic-option blocks first,
then wildcard references (design document §2.1.1 `process` flow). -/
def onePass (st : Store) (g : Gen) (t : Text) : Text × Store × Gen :=
  let (t1, g1) := replaceOptionsPass g t
  replaceWildcardAux t1.length st g1 t1

/-- Modelled from the spec: the orchestrator's bounded iteration loop (design
document §7.3): run passes while the text keeps changing, stopping at a fixed
point or when the fuel (the 100-pass ceiling) runs out, returning the
best-effort text in either case. -/
def processLoop (st : Store) (g : Gen) : Nat → Text → Text
  | 0, t => t
  | fuel + 1, t =>
    let r := onePass st g t
    if r.1 = t then t else processLoop r.2.1 r.2.2 fuel r.1

/-- The number of expansion passes the bounded loop actually executes. -/
def processPasses (st : Store) (g : Gen) : Nat → Text → Nat
  | 0, _ => 0
  | fuel + 1, t =>
    let r := onePass st g t
    if r.1 = t then 1 else 1 + processPasses r.2.1 r.2.2 fuel r.1

/-- Modelled from the spec: `process(text, seed)` of the missing
`modules/impact/wildcards.py`: strip comments once, seed the generator
(overwriting the ambient generator state `g0` when a seed is provided), then
run expansion passes to a fixed point with a hard ceiling of 100 passes. -/
def process (st : Store) (text : Text) (seed : Option Nat) (g0 : Gen) : Text :=
  processLoop st (seedOf seed g0) 100 (process_comment_out text)

/-- Eager (full-cache) loading: every backing flat file is parsed at startup
(design document "Full Cache Mode": `load_wildcards()` loads all data). -/
def buildEager (files : List (Text × List Text)) : List (Text × List Text) :=
  files.map (fun kv => (kv.fst, load_txt kv.snd))

/-- Eager-mode resolution: a direct lookup in the fully-populated dictionary. -/
def resolveEager (files : List (Text × List Text)) (key : Text) :
    Option (List Text) :=
  lookupA (buildEager files) key

/-- Split a path at `/` separators. -/
def splitSlash : Text → List Text
  | [] => [[]]
  | c :: rest =>
    if c = '/' then [] :: splitSlash rest
    else
      match splitSlash rest with
      | [] => [[c]]
      | l :: ls => (c :: l) :: ls

/-- Modelled from the spec: the component stack walk of `os.path.normpath`
(POSIX flavour): empty and `.` components are dropped, and a `..` component
pops the previous component unless there is none or it is itself `..`. -/
def normAux : List Text → List Text → List Text
  | acc, [] => acc.reverse
  | acc, comp :: comps =>
    if comp = [] ∨ comp = ['.'] then normAux acc comps
    else if comp = ['.', '.'] then
      match acc with
      | [] => normAux [comp] comps
      | top :: rest =>
        if top = ['.', '.'] then normAux (comp :: acc) comps
        else normAux rest comps
    else normAux (comp :: acc) comps

/-- Modelled from the spec: `os.path.normpath` as used by the design document's
`find_wildcard_file` (§9.1), POSIX flavour. -/
def normpath (p : Text) : Text :=
  let body := joinSep ['/'] (normAux [] (splitSlash p))
  if List.isPrefixOf ['/'] p then '/' :: body
  else if body = [] then ['.']
  else body

/-- Modelled from the spec: `find_wildcard_file` of the missing
`modules/impact/wildcards.py`, following the design document §9.1: the key is
path-normalized; a normalized key containing `..` or starting with `/` is
rejected, and the joined path is additionally required to stay under the
wildcard root directory. -/
def find_wildcard_file (root key : Text) : Option Text :=
  let safe := normpath key
  if containsSub ['.', '.'] safe || List.isPrefixOf ['/'] safe then none
  else
    let fp := root ++ '/' :: safe
    if List.isPrefixOf root fp then some fp else none

/-- The flat-file keep predicate exactly as the specification words it: a line
is kept unless it is empty after trimming or its first non-whitespace
character is `#`. -/
def claimKeep (l : Text) : Bool :=
  match lstripT l with
  | [] => false
  | c :: _ => if c = '#' then false else true

/-- The cyclic two-wildcard store of the spec's cycle-safety example: wildcard
`a` whose only option is `__B__` and wildcard `b` whose only option is `__A__`. -/
def cycleStore : Store :=
  ⟨[(txt ("a"), [txt ("__B__")]), (txt ("b"), [txt ("__A__")])], []⟩

/-- A store with no wildcards at all. -/
def emptyStore : Store := ⟨[], []⟩

theorem dropWhile_head_false {p : Char → Bool} {l t : Text} {c : Char}
    (h : l.dropWhile p = c :: t) : p c = false := by
  induction l with
  | nil => simp at h
  | cons x xs ih =>
    by_cases hx : p x
    · simp [List.dropWhile, hx] at h
      exact ih h
    · simp [List.dropWhile, hx] at h
      rcases h with ⟨h1, _⟩
      subst h1
      simpa using hx

theorem rstripT_cons {c : Char} {t : Text} (hc : isSpaceChar c = false) :
    rstripT (c :: t) = c :: rstripT t := by
  unfold rstripT
  rw [List.reverse_cons, List.dropWhile_append]
  by_cases h : (List.dropWhile isSpaceChar t.reverse).isEmpty
  · rw [if_pos h]
    simp only [List.dropWhile, hc]
    rw [List.isEmpty_iff] at h
    simp [h]
  · rw [if_neg h]
    simp

theorem keepLine_eq_claimKeep (l : Text) : keepLine l = claimKeep l := by
  unfold keepLine claimKeep stripT
  cases h : lstripT l with
  | nil => simp [rstripT]
  | cons c t =>
    have hc : isSpaceChar c = false := dropWhile_head_false h
    rw [rstripT_cons hc]
    by_cases hash : c = '#'
    · subst hash
      simp [List.isPrefixOf]
    · simp [List.isPrefixOf, hash, Ne.symm hash]

/-- Claim C8: loading a flat line-delimited backing file excludes both lines
that are empty after trimming and lines whose first non-whitespace character
is `#`; every remaining line becomes one OptionList entry, in file order. -/
theorem claim_c8_flat_file_filter (lines : List Text) :
    load_txt lines = lines.filter claimKeep ∧ (load_txt lines).Sublist lines := by
  constructor
  · unfold load_txt
    exact List.filter_congr (fun x _ => keepLine_eq_claimKeep x)
  · exact List.filter_sublist lines

/-- Claim C2: with a provided seed, the output of `process` is a function of
the text, the seed and the (unchanged) wildcard store only — the ambient
generator state left behind by earlier calls is overwritten by the seeding
step, so two calls yield byte-identical output. -/
theorem claim_c2_determinism (st : Store) (t : Text) (s : Nat) (g1 g2 : Gen) :
    process st t (some s) g1 = process st t (some s) g2 := rfl

/-- Claim C10: a requested key whose normalized form contains `..` or begins
with `/` makes `find_wildcard_file` return `none`, and any path the lookup
does return stays under the configured wildcard root directory. -/
theorem claim_c10_path_guard (root key : Text) :
    ((containsSub ['.', '.'] (normpath key) = true ∨
      List.isPrefixOf ['/'] (normpath key) = true) →
     find_wildcard_file root key = none) ∧
    (∀ p, find_wildcard_file root key = some p →
      List.isPrefixOf root p = true) := by
  constructor
  · intro h
    unfold find_wildcard_file
    have hb : (containsSub ['.', '.'] (normpath key) ||
        List.isPrefixOf ['/'] (normpath key)) = true := by
      rcases h with h | h <;> simp [h]
    simp [hb]
  · intro p hp
    unfold find_wildcard_file at hp
    simp only [] at hp
    split at hp
    next => cases hp
    next =>
      split at hp
      next hpre => cases hp; exact hpre
      next => cases hp

/-- Witness for claim C10 at a concrete traversal attempt. -/
theorem claim_c10_witness :
    (containsSub ['.', '.'] (normpath (txt ("../etc"))) = true ∨
     List.isPrefixOf ['/'] (normpath (txt ("../etc"))) = true) ∧
    find_wildcard_file (txt ("/wild")) (txt ("../etc")) = none :=
  ⟨Or.inl (by decide),
   (claim_c10_path_guard (txt ("/wild")) (txt ("../etc"))).1 (Or.inl (by decide))⟩

theorem splitLines_eq_single {a : Text} (h : '\n' ∉ a) : splitLines a = [a] := by
  induction a with
  | nil => rfl
  | cons c t ih =>
    have hc : ¬c = '\n' := fun hc => h (hc ▸ List.mem_cons_self c t)
    have ht : '\n' ∉ t := fun hm => h (List.mem_cons_of_mem c hm)
    simp [splitLines, hc, ih ht]

theorem splitLines_append {a : Text} (r : Text) (h : '\n' ∉ a) :
    splitLines (a ++ '\n' :: r) = a :: splitLines r := by
  induction a with
  | nil => simp [splitLines]
  | cons c t ih =>
    have hc : ¬c = '\n' := fun hc => h (hc ▸ List.mem_cons_self c t)
    have ht : '\n' ∉ t := fun hm => h (List.mem_cons_of_mem c hm)
    simp [splitLines, hc, ih ht]

/-- Counterexample to claim C7: on the claim's own example input the comment
stripper does NOT remove the mid-line `# comment` segment — the text is
returned unchanged (and differs from the output the claim predicts), because
only whole lines whose first non-whitespace character is `#` are comments. -/
theorem claim_c7_counterexample :
    process_comment_out (txt ("first \x7ba|b\x7d second # comment\nthird")) =
      txt ("first \x7ba|b\x7d second # comment\nthird") ∧
    process_comment_out (txt ("first \x7ba|b\x7d second # comment\nthird")) ≠
      txt ("first \x7ba|b\x7d second third") ∧
    containsSub (txt ("# comment"))
      (process_comment_out (txt ("first \x7ba|b\x7d second # comment\nthird"))) =
      true := by
  refine ⟨by decide, by decide, by decide⟩

/-- Claim C7 (amended): the comment stripper removes only whole comment LINES
(lines whose first non-whitespace character is `#`), joining the line before
and the line after a removed comment line with exactly one space; a `#`
appearing mid-line after other content is kept.  The second conjunct is the
PRD's own worked example. -/
theorem claim_c7_comment_lines_amended :
    (∀ l1 c l2 : Text, '\n' ∉ l1 → '\n' ∉ c → '\n' ∉ l2 →
      isCommentLine l1 = false → isCommentLine l2 = false →
      process_comment_out (l1 ++ '\n' :: (('#' :: c) ++ '\n' :: l2)) =
        l1 ++ ' ' :: l2) ∧
    process_comment_out
        (txt ("first \x7ba|b|c\x7d second # not a comment,\n# this is a comment\ntrailing text")) =
      txt ("first \x7ba|b|c\x7d second # not a comment, trailing text") := by
  constructor
  · intro l1 c l2 h1 hc h2 hc1 hc2
    have hhc : '\n' ∉ '#' :: c := by
      intro hm
      rcases List.mem_cons.mp hm with h | h
      · cases h
      · exact hc h
    have hsplit : splitLines (l1 ++ '\n' :: (('#' :: c) ++ '\n' :: l2)) =
        l1 :: ('#' :: c) :: [l2] := by
      rw [splitLines_append _ h1, splitLines_append _ hhc,
        splitLines_eq_single h2]
    have hsp : isSpaceChar '#' = false := by decide
    have hcl : isCommentLine ('#' :: c) = true := by
      simp [isCommentLine, lstripT, List.dropWhile_cons, hsp, List.isPrefixOf]
    unfold process_comment_out
    rw [hsplit]
    simp [stripCommentsAux, hc1, hc2, hcl, joinLines]
  · decide

/-- Witness for the amended claim C7 at a concrete three-line input. -/
theorem claim_c7_witness :
    process_comment_out
        (txt ("alpha") ++ '\n' :: (('#' :: txt (" note")) ++ '\n' :: txt ("beta"))) =
      txt ("alpha") ++ ' ' :: txt ("beta") :=
  claim_c7_comment_lines_amended.1 (txt ("alpha")) (txt (" note")) (txt ("beta"))
    (by decide) (by decide) (by decide) (by decide) (by decide)

theorem weightedPick_countP (ws : List Nat) (i : Nat) (h : i < ws.length) :
    (List.range ws.sum).countP (fun r => weightedPick ws r == i) = ws.getD i 0 := by
  induction ws generalizing i with
  | nil => simp at h
  | cons w ws ih =>
    rw [List.sum_cons, List.range_add, List.countP_append, List.countP_map]
    cases i with
    | zero =>
      have h1 : (List.range w).countP (fun r => weightedPick (w :: ws) r == 0) = w := by
        have := List.countP_eq_length
          (l := List.range w) (p := fun r => weightedPick (w :: ws) r == 0)
        rw [List.length_range] at this
        apply this.mpr
        intro a ha
        have : a < w := List.mem_range.mp ha
        simp [weightedPick, this]
      have h2 : (List.range ws.sum).countP
          ((fun r => weightedPick (w :: ws) r == 0) ∘ (fun x => w + x)) = 0 := by
        apply List.countP_eq_zero.mpr
        intro a _
        have hnl : ¬(w + a < w) := by omega
        simp [Function.comp, weightedPick, hnl]
      rw [h1, h2]
      simp
    | succ i' =>
      have h1 : (List.range w).countP
          (fun r => weightedPick (w :: ws) r == i' + 1) = 0 := by
        apply List.countP_eq_zero.mpr
        intro a ha
        have : a < w := List.mem_range.mp ha
        simp [weightedPick, this]
      have h2 : (List.range ws.sum).countP
          ((fun r => weightedPick (w :: ws) r == i' + 1) ∘ (fun x => w + x)) =
          ws.getD i' 0 := by
        have hcong : ∀ a ∈ List.range ws.sum,
            ((fun r => weightedPick (w :: ws) r == i' + 1) ∘ (fun x => w + x)) a =
              true ↔ (fun r => weightedPick ws r == i') a = true := by
          intro a _
          have hnl : ¬(w + a < w) := by omega
          simp [Function.comp, weightedPick, hnl, Nat.add_sub_cancel_left]
        rw [List.countP_congr hcong]
        exact ih i' (by simpa using h)
      rw [h1, h2]
      simp

/-- Claim C5: a segment `weight::text` is selected with probability equal to
its weight over the sum of block weights (stated exactly: among the
`ws.sum` equally likely raw draws, exactly `ws.getD i 0` select segment `i`),
with unmarked segments counting as weight 1, and a segment `text::weight` is
NOT weighted: `10::common|1::rare` parses to weights `[10, 1]` (so `common` is
picked for 10 of 11 draws) while `common::10|rare::1` parses to weights
`[1, 1]` (one of two draws each). -/
theorem claim_c5_weighted_selection :
    (∀ ws : List Nat, ∀ i, i < ws.length →
      (List.range ws.sum).countP (fun r => weightedPick ws r == i) = ws.getD i 0) ∧
    (splitTop (txt ("10::common|1::rare"))).map parseWeight =
      [(10, txt ("common")), (1, txt ("rare"))] ∧
    (List.range 11).countP (fun r => weightedPick [10, 1] r == 0) = 10 ∧
    (splitTop (txt ("common::10|rare::1"))).map parseWeight =
      [(1, txt ("common::10")), (1, txt ("rare::1"))] ∧
    (List.range 2).countP (fun r => weightedPick [1, 1] r == 0) = 1 ∧
    (List.range 2).countP (fun r => weightedPick [1, 1] r == 1) = 1 :=
  ⟨weightedPick_countP, by decide, by decide, by decide, by decide, by decide⟩

/-- Witness for claim C5, instantiating the counting law at the weights of
`10::common|1::rare` and the index of `common`. -/
theorem claim_c5_witness :
    0 < ([10, 1] : List Nat).length ∧
    (List.range (([10, 1] : List Nat).sum)).countP
      (fun r => weightedPick [10, 1] r == 0) = ([10, 1] : List Nat).getD 0 0 :=
  ⟨by decide, claim_c5_weighted_selection.1 [10, 1] 0 (by decide)⟩

theorem genNext_lt (g : Gen) {n : Nat} (h : 0 < n) : (genNext g n).1 < n := by
  simp only [genNext]
  exact Nat.mod_lt _ h

theorem perm_getD_eraseIdx {α : Type} (l : List α) (r : Nat) (h : r < l.length)
    (d : α) : l.Perm (l.getD r d :: l.eraseIdx r) := by
  induction l generalizing r with
  | nil => simp at h
  | cons a t ih =>
    cases r with
    | zero => simp [List.getD]
    | succ r' =>
      have h' : r' < t.length := by simpa using h
      have step := (ih r' h').cons a
      simp only [List.getD_cons_succ, List.eraseIdx_cons_succ]
      exact step.trans (List.Perm.swap (t.getD r' d) a (t.eraseIdx r'))

theorem sampleDistinct_length (g : Gen) (n : Nat) (opts : List Text) :
    (sampleDistinct g n opts).1.length = min n opts.length := by
  induction n generalizing g opts with
  | zero => simp [sampleDistinct]
  | succ n ih =>
    cases opts with
    | nil => simp [sampleDistinct]
    | cons o os =>
      have hr : (genNext g (os.length + 1)).1 < os.length + 1 :=
        genNext_lt g (Nat.succ_pos _)
      simp only [sampleDistinct, List.length_cons]
      rw [ih]
      rw [List.length_eraseIdx]
      simp only [List.length_cons]
      rw [if_pos hr]
      omega

theorem sampleDistinct_subperm (g : Gen) (n : Nat) (opts : List Text) :
    (sampleDistinct g n opts).1.Subperm opts := by
  induction n generalizing g opts with
  | zero => simp [sampleDistinct, List.nil_subperm]
  | succ n ih =>
    cases opts with
    | nil => simp [sampleDistinct, List.nil_subperm]
    | cons o os =>
      have hr : (genNext g (o :: os).length).1 < (o :: os).length :=
        genNext_lt g (by simp)
      have hperm := perm_getD_eraseIdx (o :: os) ((genNext g (o :: os).length).1) hr []
      have h1 := ih (genNext g (o :: os).length).2
        ((o :: os).eraseIdx ((genNext g (o :: os).length).1))
      have h2 := (List.subperm_cons
        ((o :: os).getD ((genNext g (o :: os).length).1) [])).mpr h1
      simpa [sampleDistinct] using h2.trans hperm.symm.subperm

theorem subperm_nodup {α : Type} {l1 l2 : List α} (h : l1.Subperm l2)
    (h2 : l2.Nodup) : l1.Nodup := by
  obtain ⟨l, hperm, hsub⟩ := h
  exact hperm.nodup_iff.mp (h2.sublist hsub)

set_option maxRecDepth 4000 in
/-- Claim C6: a multi-select block samples options pairwise distinct by
original list position (the chosen list is a sub-permutation of the option
list, so duplicates are never introduced), the number of picks is clamped to
the available count (`min`), and the concrete block `3$$, $$a|b|c|d|e` always
evaluates to exactly 3 pairwise-distinct options joined by `", "`. -/
theorem claim_c6_multiselect :
    (∀ (g : Gen) (n : Nat) (opts : List Text),
      (sampleDistinct g n opts).1.length = min n opts.length) ∧
    (∀ (g : Gen) (n : Nat) (opts : List Text),
      (sampleDistinct g n opts).1.Subperm opts) ∧
    parseMulti (txt ("3$$, $$a|b|c|d|e")) =
      some (MCount.fixedN 3, txt (", "),
        [txt ("a"), txt ("b"), txt ("c"), txt ("d"), txt ("e")]) ∧
    (∀ g : Gen, ∃ chosen : List Text,
      evalBlock g (txt ("3$$, $$a|b|c|d|e")) =
        (joinSep (txt (", ")) chosen,
         (sampleDistinct g 3
           [txt ("a"), txt ("b"), txt ("c"), txt ("d"), txt ("e")]).2) ∧
      chosen.length = 3 ∧ chosen.Nodup ∧
      chosen.Subperm [txt ("a"), txt ("b"), txt ("c"), txt ("d"), txt ("e")]) := by
  have hp : parseMulti (txt ("3$$, $$a|b|c|d|e")) =
      some (MCount.fixedN 3, txt (", "),
        [txt ("a"), txt ("b"), txt ("c"), txt ("d"), txt ("e")]) := by decide
  refine ⟨sampleDistinct_length, sampleDistinct_subperm, hp, ?_⟩
  intro g
  rcases hsd : sampleDistinct g 3
      [txt ("a"), txt ("b"), txt ("c"), txt ("d"), txt ("e")] with ⟨chosen, g2⟩
  refine ⟨chosen, ?_, ?_, ?_, ?_⟩
  · simp only [evalBlock, hp, hsd]
  · have hl := sampleDistinct_length g 3
      [txt ("a"), txt ("b"), txt ("c"), txt ("d"), txt ("e")]
    rw [hsd] at hl
    simpa using hl
  · have hs := sampleDistinct_subperm g 3
      [txt ("a"), txt ("b"), txt ("c"), txt ("d"), txt ("e")]
    rw [hsd] at hs
    exact subperm_nodup hs (by decide)
  · have hs := sampleDistinct_subperm g 3
      [txt ("a"), txt ("b"), txt ("c"), txt ("d"), txt ("e")]
    rw [hsd] at hs
    exact hs

theorem findClose_eq {t : Text} {d : Nat} {inner after : Text}
    (h : findClose t d = some (inner, after)) : t = inner ++ '\x7d' :: after := by
  induction t generalizing d inner after with
  | nil => simp [findClose] at h
  | cons c rest ih =>
    by_cases h1 : c = '\x7d'
    · subst h1
      by_cases h2 : d = 0
      · subst h2
        have hdef : findClose ('\x7d' :: rest) 0 = some ([], rest) := by
          simp [findClose]
        rw [hdef] at h
        cases h
        rfl
      · have hdef : findClose ('\x7d' :: rest) d =
            (findClose rest (d - 1)).map (fun p => ('\x7d' :: p.1, p.2)) := by
          simp [findClose, h2]
        rw [hdef, Option.map_eq_some'] at h
        obtain ⟨⟨i', a'⟩, hfc, heq⟩ := h
        cases heq
        rw [ih hfc]
        rfl
    · by_cases h3 : c = '\x7b'
      · subst h3
        have hdef : findClose ('\x7b' :: rest) d =
            (findClose rest (d + 1)).map (fun p => ('\x7b' :: p.1, p.2)) := by
          simp [findClose]
        rw [hdef, Option.map_eq_some'] at h
        obtain ⟨⟨i', a'⟩, hfc, heq⟩ := h
        cases heq
        rw [ih hfc]
        rfl
      · have hdef : findClose (c :: rest) d =
            (findClose rest d).map (fun p => (c :: p.1, p.2)) := by
          simp [findClose, h1, h3]
        rw [hdef, Option.map_eq_some'] at h
        obtain ⟨⟨i', a'⟩, hfc, heq⟩ := h
        cases heq
        rw [ih hfc]
        rfl

theorem replaceOptionsPass_id (t : Text) :
    '\x7d' ∉ t → ∀ g : Gen, replaceOptionsPass g t = (t, g) := by
  induction t with
  | nil => intro _ g; rfl
  | cons c rest ih =>
    intro h g
    have hrest : '\x7d' ∉ rest := fun hm => h (List.mem_cons_of_mem c hm)
    by_cases hc : c = '\x7b'
    · subst hc
      cases hfc : findClose rest 0 with
      | some p =>
        exfalso
        rcases p with ⟨inner, after⟩
        apply h
        rw [findClose_eq hfc]
        exact List.mem_cons_of_mem _
          (List.mem_append.mpr (Or.inr (List.mem_cons_self _ _)))
      | none =>
        simp [replaceOptionsPass, hfc, ih hrest g]
    · simp [replaceOptionsPass, hc, ih hrest g]

set_option maxRecDepth 8000 in
/-- Claim C9: malformed grammar is handled gracefully and totally: an
unterminated block is left as literal text by the option pass (and the full
`process`, a total function, returns `\x7ba|b` unchanged for every store, seed
and ambient generator — no exception exists in the model); an empty option
segment as in `\x7ba||b\x7d` is a valid segment and a seed exists whose draw
selects the empty string. -/
theorem claim_c9_malformed_graceful :
    (∀ t : Text, '\x7d' ∉ t → ∀ g : Gen, replaceOptionsPass g t = (t, g)) ∧
    (∀ (st : Store) (seed : Option Nat) (g0 : Gen),
      process st (txt ("\x7ba|b")) seed g0 = txt ("\x7ba|b")) ∧
    splitTop (txt ("a||b")) = [txt ("a"), [], txt ("b")] ∧
    (∃ s : Nat, process emptyStore (txt ("\x7ba||b\x7d")) (some s) ⟨0⟩ = []) := by
  refine ⟨replaceOptionsPass_id, ?_, by decide, ⟨2, by decide⟩⟩
  intro st seed g0
  cases seed with
  | none => rfl
  | some s => rfl

/-- Witness for claim C9 at a concrete brace-free text. -/
theorem claim_c9_witness :
    ('\x7d' ∉ txt ("plain text")) ∧
    replaceOptionsPass ⟨7⟩ (txt ("plain text")) = (txt ("plain text"), ⟨7⟩) :=
  ⟨by decide, claim_c9_malformed_graceful.1 (txt ("plain text")) (by decide) ⟨7⟩⟩

theorem processPasses_le (fuel : Nat) : ∀ (st : Store) (g : Gen) (t : Text),
    processPasses st g fuel t ≤ fuel := by
  induction fuel with
  | zero => intro st g t; simp [processPasses]
  | succ fuel ih =>
    intro st g t
    simp only [processPasses]
    split
    · omega
    · have h := ih (onePass st g t).2.1 (onePass st g t).2.2 (onePass st g t).1
      omega

set_option maxRecDepth 8000 in
/-- Claim C1: `process` performs at most 100 expansion passes; the loop stops
as soon as a full pass leaves the text unchanged; and on the cyclic store
(wildcard `a` → `__B__`, wildcard `b` → `__A__`) `process("__A__", 1)` hits
the ceiling and returns the best-effort partially-expanded string, which still
contains `__A__` or `__B__` — there is no hang and no error. -/
theorem claim_c1_iteration_ceiling :
    (∀ (st : Store) (t : Text) (seed : Option Nat) (g0 : Gen),
      processPasses st (seedOf seed g0) 100 (process_comment_out t) ≤ 100) ∧
    (∀ (st : Store) (g : Gen) (fuel : Nat) (t : Text),
      (onePass st g t).1 = t → processLoop st g fuel t = t) ∧
    process cycleStore (txt ("__A__")) (some 1) ⟨0⟩ = txt ("__A__") ∧
    (containsSub (txt ("__A__"))
       (process cycleStore (txt ("__A__")) (some 1) ⟨0⟩) = true ∨
     containsSub (txt ("__B__"))
       (process cycleStore (txt ("__A__")) (some 1) ⟨0⟩) = true) := by
  refine ⟨fun st t seed g0 =>
    processPasses_le 100 st (seedOf seed g0) (process_comment_out t),
    ?_, by decide, Or.inl (by decide)⟩
  intro st g fuel t h
  cases fuel with
  | zero => rfl
  | succ fuel => simp [processLoop, h]

/-- Witness for claim C1: the fixed-point stop applied to a text on which one
pass makes no change. -/
theorem claim_c1_witness :
    (onePass emptyStore ⟨0⟩ (txt ("x"))).1 = txt ("x") ∧
    processLoop emptyStore ⟨0⟩ 5 (txt ("x")) = txt ("x") :=
  ⟨by decide,
   claim_c1_iteration_ceiling.2.1 emptyStore ⟨0⟩ 5 (txt ("x")) (by decide)⟩

theorem findToken_eq {t name after : Text}
    (h : findToken t = some (name, after)) : t = name ++ '_' :: '_' :: after := by
  induction t generalizing name after with
  | nil => simp [findToken] at h
  | cons c1 t1 ih =>
    cases t1 with
    | nil => simp [findToken] at h
    | cons c2 rest =>
      by_cases h12 : c1 = '_' ∧ c2 = '_'
      · obtain ⟨e1, e2⟩ := h12
        subst e1; subst e2
        have hdef : findToken ('_' :: '_' :: rest) = some ([], rest) := by
          simp [findToken]
        rw [hdef] at h
        cases h
        rfl
      · have hdef : findToken (c1 :: c2 :: rest) =
            (findToken (c2 :: rest)).map (fun p => (c1 :: p.1, p.2)) := by
          simp [findToken, h12]
        rw [hdef, Option.map_eq_some'] at h
        obtain ⟨⟨n', a'⟩, hfc, heq⟩ := h
        cases heq
        rw [ih hfc]
        rfl

theorem get_none_eq {st : Store} {key : Text}
    (h : (get_wildcard_value st key).1 = none) :
    get_wildcard_value st key = (none, st) := by
  cases h1 : lookupA st.loaded key with
  | some v => simp [get_wildcard_value, h1] at h
  | none =>
    cases h2 : lookupA st.available key with
    | some lines => simp [get_wildcard_value, h1, h2] at h
    | none =>
      by_cases h3 :
          st.available.filter (fun kv => matches_depth_agnostic kv.fst key) = []
      · simp [get_wildcard_value, h1, h2, h3]
      · simp [get_wildcard_value, h1, h2, h3] at h

theorem lookupA_mem {α : Type} {l : List (Text × α)} {key : Text}
    (h : key ∈ l.map Prod.fst) : ∃ v, lookupA l key = some v := by
  induction l with
  | nil => simp at h
  | cons kv rest ih =>
    by_cases hk : kv.fst = key
    · exact ⟨kv.snd, by simp [lookupA, hk]⟩
    · have : key ∈ rest.map Prod.fst := by
        rcases List.mem_map.mp h with ⟨p, hp, he⟩
        rcases List.mem_cons.mp hp with h' | h'
        · exact absurd (h' ▸ he) hk
        · exact List.mem_map.mpr ⟨p, h', he⟩
      rcases ih this with ⟨v, hv⟩
      exact ⟨v, by simp [lookupA, hk, hv]⟩

theorem lookupA_map_snd {α β : Type} (l : List (Text × α)) (f : α → β)
    (key : Text) :
    lookupA (l.map (fun kv => (kv.fst, f kv.snd))) key =
      (lookupA l key).map f := by
  induction l with
  | nil => rfl
  | cons kv rest ih =>
    by_cases hk : kv.fst = key
    · simp [lookupA, hk]
    · simp [lookupA, hk, ih]

/-- Counterexample to claim C3: with `colors/dragon` present only in the
loaded cache and `a/dragon` in the availability index, resolving `dragon`
returns only the options of `a/dragon` — the loaded-only key `colors/dragon`
matches the claim's depth-agnostic criterion but its OptionList `[x]` is NOT
part of the combined pool, so the fallback does not scan "all known keys". -/
theorem claim_c3_counterexample :
    lookupA (Store.mk [(txt ("colors/dragon"), [txt ("x")])]
        [(txt ("a/dragon"), [txt ("y")])]).loaded (txt ("dragon")) = none ∧
    lookupA (Store.mk [(txt ("colors/dragon"), [txt ("x")])]
        [(txt ("a/dragon"), [txt ("y")])]).available (txt ("dragon")) = none ∧
    matches_depth_agnostic (txt ("colors/dragon")) (txt ("dragon")) = true ∧
    (get_wildcard_value (Store.mk [(txt ("colors/dragon"), [txt ("x")])]
        [(txt ("a/dragon"), [txt ("y")])]) (txt ("dragon"))).1 =
      some [txt ("y")] ∧
    txt ("x") ∉ [txt ("y")] := by
  refine ⟨by decide, by decide, by decide, by decide, by decide⟩

/-- Claim C3 (amended): when a key has no exact match in the loaded cache and
no directly loadable file, the fallback concatenates, in index order, the
OptionLists of every key of the AVAILABILITY index (the metadata-scanned
backing files — keys present only in the loaded cache are not scanned) that
matches the depth-agnostic criterion, and caches the combined pool under the
originally requested key; with zero matches it returns `none`, leaves the
store unchanged, and the `__name__` token of an unresolvable name is left
unexpanded by the wildcard pass. -/
theorem claim_c3_fallback_amended :
    (∀ (st : Store) (key : Text),
      lookupA st.loaded key = none →
      lookupA st.available key = none →
      ((st.available.filter (fun kv => matches_depth_agnostic kv.fst key) = [] →
          get_wildcard_value st key = (none, st)) ∧
       (st.available.filter (fun kv => matches_depth_agnostic kv.fst key) ≠ [] →
          get_wildcard_value st key =
            (some (((st.available.filter
                  (fun kv => matches_depth_agnostic kv.fst key)).map
                    (fun kv => load_txt kv.snd)).flatten),
             Store.mk
               ((key, ((st.available.filter
                  (fun kv => matches_depth_agnostic kv.fst key)).map
                    (fun kv => load_txt kv.snd)).flatten) :: st.loaded)
               st.available)))) ∧
    (∀ (st : Store) (g : Gen) (rest name : Text),
      findToken rest = some (name, []) →
      (get_wildcard_value st (wildcard_normalize name)).1 = none →
      replaceWildcardPass st g ('_' :: '_' :: rest) =
        ('_' :: '_' :: rest, st, g)) := by
  constructor
  · intro st key h1 h2
    constructor
    · intro h3
      simp [get_wildcard_value, h1, h2, h3]
    · intro h3
      simp [get_wildcard_value, h1, h2, h3]
  · intro st g rest name hft hnone
    have hrest : rest = name ++ ['_', '_'] := by
      simpa using findToken_eq hft
    have hget : get_wildcard_value st (wildcard_normalize name) = (none, st) :=
      get_none_eq hnone
    unfold replaceWildcardPass
    simp only [List.length_cons]
    simp only [replaceWildcardAux, hft, hget]
    rw [hrest]
    simp [replaceWildcardAux, List.cons_append]

/-- Witness for the amended claim C3: a concrete fallback hit (combining the
one matching availability key and caching it) and a concrete unresolvable
token left unexpanded. -/
theorem claim_c3_witness :
    get_wildcard_value (Store.mk [] [(txt ("a/dragon"), [txt ("y")])])
        (txt ("dragon")) =
      (some [txt ("y")],
       Store.mk [(txt ("dragon"), [txt ("y")])] [(txt ("a/dragon"), [txt ("y")])]) ∧
    findToken (txt ("nope__")) = some (txt ("nope"), []) ∧
    replaceWildcardPass emptyStore ⟨0⟩ ('_' :: '_' :: txt ("nope__")) =
      ('_' :: '_' :: txt ("nope__"), emptyStore, ⟨0⟩) :=
  ⟨by
    have h := ((claim_c3_fallback_amended.1
      (Store.mk [] [(txt ("a/dragon"), [txt ("y")])]) (txt ("dragon"))
      (by decide) (by decide)).2 (by decide))
    exact h.trans (by decide),
   by decide,
   claim_c3_fallback_amended.2 emptyStore ⟨0⟩ (txt ("nope__")) (txt ("nope"))
     (by decide) (by decide)⟩

/-- Claim C4: eager (full-cache) loading and lazy (on-demand) loading are
observationally equivalent for resolution: for every key backed by a file in
the availability index, first-access lazy resolution returns exactly the
OptionList eager startup loading would have produced, and once a key is
loaded, resolving it again returns the identical cached OptionList. -/
theorem claim_c4_eager_lazy_equiv :
    (∀ (files : List (Text × List Text)) (key : Text),
      key ∈ files.map Prod.fst →
      (get_wildcard_value (Store.mk [] files) key).1 = resolveEager files key) ∧
    (∀ (st : Store) (key : Text) (v : List Text) (st' : Store),
      get_wildcard_value st key = (some v, st') →
      (get_wildcard_value st' key).1 = some v) := by
  constructor
  · intro files key hk
    obtain ⟨lines, hl⟩ := lookupA_mem hk
    have h0 : lookupA (Store.mk [] files).loaded key = none := rfl
    have h2 : lookupA (Store.mk [] files).available key = some lines := hl
    unfold resolveEager buildEager
    rw [lookupA_map_snd, hl]
    simp [get_wildcard_value, h0, h2]
  · intro st key v st' h
    cases h1 : lookupA st.loaded key with
    | some w =>
      rw [show get_wildcard_value st key = (some w, st) by
        simp [get_wildcard_value, h1]] at h
      cases h
      simp [get_wildcard_value, h1]
    | none =>
      cases h2 : lookupA st.available key with
      | some lines =>
        rw [show get_wildcard_value st key =
            (some (load_txt lines),
             Store.mk ((key, load_txt lines) :: st.loaded) st.available) by
          simp [get_wildcard_value, h1, h2]] at h
        cases h
        simp [get_wildcard_value, lookupA]
      | none =>
        by_cases h3 :
            st.available.filter (fun kv => matches_depth_agnostic kv.fst key) = []
        · simp [get_wildcard_value, h1, h2, h3] at h
        · rw [show get_wildcard_value st key =
              (some (((st.available.filter
                    (fun kv => matches_depth_agnostic kv.fst key)).map
                      (fun kv => load_txt kv.snd)).flatten),
               Store.mk
                 ((key, ((st.available.filter
                    (fun kv => matches_depth_agnostic kv.fst key)).map
                      (fun kv => load_txt kv.snd)).flatten) :: st.loaded)
                 st.available) by
            simp [get_wildcard_value, h1, h2, h3]] at h
          cases h
          simp [get_wildcard_value, lookupA]

/-- Witness for claim C4 at a concrete two-file backing store. -/
theorem claim_c4_witness :
    txt ("flower") ∈
      ([(txt ("flower"), [txt ("rose"), txt ("")]),
        (txt ("animal"), [txt ("cat")])].map Prod.fst) ∧
    (get_wildcard_value
        (Store.mk [] [(txt ("flower"), [txt ("rose"), txt ("")]),
          (txt ("animal"), [txt ("cat")])]) (txt ("flower"))).1 =
      resolveEager [(txt ("flower"), [txt ("rose"), txt ("")]),
        (txt ("animal"), [txt ("cat")])] (txt ("flower")) :=
  ⟨by decide,
   claim_c4_eager_lazy_equiv.1
     [(txt ("flower"), [txt ("rose"), txt ("")]),
      (txt ("animal"), [txt ("cat")])] (txt ("flower")) (by decide)⟩
